import Mathlib

/-!
Verification of the psminimize pipeline (main.go) against its specification.

The Go source is shallowly embedded over `List Char` (one list per text line).
Modelling conventions, each noted again at the definition it concerns:
* Go strings are `List Char`; the inputs exercised are ASCII, where Go's
  byte-indexed scanning and `strings.ToUpper` agree with the per-char model.
* Go's `map[string]int` iteration order is unspecified; the embedding uses
  first-encounter order, one admissible order.
* Go's `sort.Sort` guarantees only sortedness (it is unstable); the embedding
  uses a stable insertion sort, one admissible outcome.  Every concrete input
  used in a theorem is chosen so that the sort keys involved are strict,
  making the relevant positions independent of tie-breaking.
* Go code that would panic (index out of range) is modelled with `Option`:
  `none` is the panicking run.
* `uuid.NewRandom` draws from a process-wide random source; the embedding
  takes the sequence of rendered UUID strings as an explicit parameter.
-/

/-- Go `byte(35)` = CHARComment (`#`), from the `const` block of main.go. -/
def CHARComment : Char := Char.ofNat 35

/-- Go `byte(92)` = ESCChar1 (backslash). -/
def ESCChar1 : Char := Char.ofNat 92

/-- Go `byte(96)` = ESCChar2 (backtick). -/
def ESCChar2 : Char := Char.ofNat 96

/-- Go `byte(60)` = LT (`<`).  The source calls this constant `LT`, a name
taken by a core type class here. -/
def LTchar : Char := Char.ofNat 60

/-- Go `byte(62)` = GT (`>`).  The source calls this constant `GT`. -/
def GTchar : Char := Char.ofNat 62

/-- The dollar sigil. -/
def SIGIL : Char := Char.ofNat 36

/-- `varShortNames`: the 51 bytes A..Z, a..y from main.go. -/
def varShortNames : List Char :=
  (List.range 26).map (fun i => Char.ofNat (65 + i)) ++
  (List.range 25).map (fun i => Char.ofNat (97 + i))

/-- Go `strings.ToUpper` restricted to ASCII (all inputs considered are
ASCII, where Go and this model agree). -/
def goUpperChar (c : Char) : Char :=
  if 97 ≤ c.toNat ∧ c.toNat ≤ 122 then Char.ofNat (c.toNat - 32) else c

/-- `strings.ToUpper` on a whole line. -/
def listToUpper (l : List Char) : List Char := l.map goUpperChar

/-- One character class of the variable regexp `[A-Z0-9a-z_]`. -/
def isVarChar (c : Char) : Bool :=
  (65 ≤ c.toNat && c.toNat ≤ 90) || (97 ≤ c.toNat && c.toNat ≤ 122) ||
  (48 ≤ c.toNat && c.toNat ≤ 57) || c.toNat == 95

/-- Go `strconv.Itoa` on naturals, fuelled so that the kernel can evaluate it
(the fuel `n+1` always suffices since `n/10 < n` for `n ≥ 10`). -/
def itoaF : Nat → Nat → List Char
  | 0, _ => []
  | f + 1, n =>
    if n < 10 then [Char.ofNat (48 + n)]
    else itoaF f (n / 10) ++ [Char.ofNat (48 + n % 10)]

/-- Go `strconv.Itoa` (decimal rendering of a natural number). -/
def itoa (n : Nat) : List Char := itoaF (n + 1) n

/-- One step list of `strings.Replace(s, pat, rep, -1)`: non-overlapping
leftmost replacement of every occurrence.  Fuelled on the length of the
scanned list so the kernel can evaluate it; the fuel never runs out when
started at `s.length` because every step consumes at least one character. -/
def replaceAllF (pat rep : List Char) : Nat → List Char → List Char
  | _, [] => []
  | 0, s => s
  | fuel + 1, c :: cs =>
    if pat.isPrefixOf (c :: cs) then
      rep ++ replaceAllF pat rep fuel (cs.drop (pat.length - 1))
    else
      c :: replaceAllF pat rep fuel cs

/-- Go `strings.Replace(s, pat, rep, -1)`.  The Go behaviour for an empty
pattern (inserting between every character) is never exercised here: every
pattern the program builds is non-empty, so the model simply returns `s`. -/
def replaceAll (pat rep s : List Char) : List Char :=
  if pat = [] then s else replaceAllF pat rep s.length s

/-- Number of non-overlapping occurrences of `pat` in `s` (the count
`strings.Count` would give for a non-empty pattern), fuelled like
`replaceAllF`. -/
def countOccF (pat : List Char) : Nat → List Char → Nat
  | _, [] => 0
  | 0, _ => 0
  | fuel + 1, c :: cs =>
    if pat.isPrefixOf (c :: cs) then
      1 + countOccF pat fuel (cs.drop (pat.length - 1))
    else
      countOccF pat fuel cs

/-- Non-overlapping occurrence count of a non-empty pattern. -/
def countOcc (pat s : List Char) : Nat :=
  if pat = [] then 0 else countOccF pat s.length s

/-- Stable insertion used by `sortBy`: `le a b = true` means `a` may sit
before `b`. -/
def insertBy {α : Type} (le : α → α → Bool) (a : α) : List α → List α
  | [] => [a]
  | b :: bs => if le a b then a :: b :: bs else b :: insertBy le a bs

/-- Stable insertion sort.  Go's `sort.Sort` is unstable and guarantees only
sortedness; this is one admissible outcome (see header note). -/
def sortBy {α : Type} (le : α → α → Bool) : List α → List α
  | [] => []
  | a :: as => insertBy le a (sortBy le as)

/-- `PSVariable` from main.go (string fields as `List Char`). -/
structure PSVariable where
  OriginalName : List Char
  UniqueName : List Char
  ShortName : List Char
  Count : Nat
  Reserved : Bool
deriving DecidableEq

/-- `PSVariables.Less` (sort by descending `Count`), as the before-or-equal
test handed to the stable sort. -/
def countLe (a b : PSVariable) : Bool := b.Count ≤ a.Count

/-- `PSVariablesNameMod.Less` (sort by descending original-name length). -/
def nameLenLe (a b : PSVariable) : Bool :=
  b.OriginalName.length ≤ a.OriginalName.length

/-- Modelled from the spec: `reservedPSVariables` lives in a repository file
that is not under src/ (only its use sites are); per the spec it is "a fixed
reserved-identifier set (built-in automatic/environment variables of the host
scripting language)", keyed by the canonical upper-cased form.  The standard
PowerShell automatic variables are listed. -/
def reservedPSVariables : List (List Char) :=
  ["$TRUE".data, "$FALSE".data, "$NULL".data, "$ARGS".data, "$ERROR".data,
   "$HOME".data, "$HOST".data, "$INPUT".data, "$LASTEXITCODE".data,
   "$MATCHES".data, "$MYINVOCATION".data, "$NESTEDPROMPTLEVEL".data,
   "$OFS".data, "$PID".data, "$PROFILE".data, "$PSHOME".data, "$PWD".data,
   "$SHELLID".data, "$STACKTRACE".data, "$THIS".data, "$_".data]

/-- All matches of the regexp `[`]?\$[A-Z0-9a-z_]*` in one line, leftmost,
non-overlapping, with the greedy maximal run of identifier characters —
exactly what `FindAllStringSubmatch(line, -1)` yields (the pattern has no
capture groups, so each submatch row is the full match alone).  Fuelled on
the line length for kernel evaluation. -/
def findMatchesF : Nat → List Char → List (List Char)
  | 0, _ => []
  | _, [] => []
  | fuel + 1, c :: cs =>
    if c = ESCChar2 then
      match cs with
      | d :: ds =>
        if d = SIGIL then
          (c :: d :: ds.takeWhile isVarChar) :: findMatchesF fuel (ds.dropWhile isVarChar)
        else findMatchesF fuel cs
      | [] => []
    else if c = SIGIL then
      (c :: cs.takeWhile isVarChar) :: findMatchesF fuel (cs.dropWhile isVarChar)
    else findMatchesF fuel cs

/-- All regexp matches of one line. -/
def findMatches (l : List Char) : List (List Char) := findMatchesF l.length l

/-- The upper-cased match names of all lines, in scan order (the contents the
Go code feeds into `psVarMap`). -/
def allVarNames (lines : List (List Char)) : List (List Char) :=
  lines.flatMap (fun l => (findMatches l).map listToUpper)

/-- Occurrence tally.  Go stores the counts in `map[string]int`; the model
keeps the first-encounter order (one admissible iteration order). -/
def tally : List (List Char) → List (List Char × Nat) → List (List Char × Nat)
  | [], acc => acc
  | m :: ms, acc =>
    if (acc.map Prod.fst).contains m then
      tally ms (acc.map (fun kv => if kv.1 = m then (kv.1, kv.2 + 1) else kv))
    else
      tally ms (acc ++ [(m, 1)])

/-- Build one `PSVariable` from a tally entry, following the loop body of
`getVariables` in main.go: mark reserved if the canonical name is a key of
`reservedPSVariables` or starts with the escape backtick, and in that case
preset `ShortName` to the original name. -/
def mkVar (kv : List Char × Nat) : PSVariable :=
  let r := reservedPSVariables.contains kv.1 || kv.1.head? = some ESCChar2
  { OriginalName := kv.1, UniqueName := [], Count := kv.2, Reserved := r,
    ShortName := if r then kv.1 else [] }

/-- `getVariables` from main.go. -/
def getVariables (lines : List (List Char)) : List PSVariable :=
  (tally (allVarNames lines) []).map mkVar

/-- `assignUniqueRandomNames` from main.go: give the i-th variable (in the
list's current order) the unique name `$~~` + upper-cased rendered UUID, then
re-sort the slice by descending original-name length.  The rendered UUID
strings are the explicit randomness parameter. -/
def assignUniqueRandomNames (uuids : List (List Char)) (p : List PSVariable) :
    List PSVariable :=
  sortBy nameLenLe
    ((p.zip (List.range p.length)).map (fun vi =>
      { vi.1 with UniqueName := SIGIL :: '~' :: '~' :: listToUpper (uuids.getD vi.2 []) }))

/-- The loop body of `generateShortNames`, carrying `nameIter` and `count`
exactly as main.go does: reserved entries are skipped without consuming a
slot (`continue` also skips the `nameIter++`); a non-reserved entry gets
`"$" + varShortNames[nameIter-51*count]`, with the decimal suffix
`count-1` once `count > 0`.  Go's slice indexing would panic out of range;
with `count = nameIter/51` the index is `nameIter % 51 < 51`, always in
range, so `getD` never takes its default. -/
def genAux : List PSVariable → Nat → Nat → List PSVariable
  | [], _, _ => []
  | v :: rest, it, cnt =>
    if v.Reserved then v :: genAux rest it cnt
    else
      let s := SIGIL :: varShortNames.getD (it - 51 * cnt) ' ' ::
        (if 0 < cnt then itoa (cnt - 1) else [])
      let cnt2 := if (it + 1) % 51 = 0 then cnt + 1 else cnt
      { v with ShortName := s } :: genAux rest (it + 1) cnt2

/-- `generateShortNames` from main.go. -/
def generateShortNames (p : List PSVariable) : List PSVariable := genAux p 0 0

/-- The short name the allocation sequence yields for its n-th slot
(`count = n / 51`, letter index `n % 51`, decimal suffix `n/51 - 1` from the
52nd slot on): `$A … $y, $A0 … $y0, $A1 …`. -/
def slotName (n : Nat) : List Char :=
  SIGIL :: varShortNames.getD (n % 51) ' ' ::
    (if 51 ≤ n then itoa (n / 51 - 1) else [])

/-- The per-line substitution loop of `replaceVariablesWithUnique`: upper-case
the line, then replace every occurrence of each variable's original name with
its unique name, in the order of the given (length-sorted) list. -/
def replaceVarsLine (q : List PSVariable) (l : List Char) : List Char :=
  q.foldl (fun acc v => replaceAll v.OriginalName v.UniqueName acc) (listToUpper l)

/-- `replaceVariablesWithUnique` from main.go (it re-sorts the slice by
descending name length before the loop). -/
def replaceVariablesWithUnique (p : List PSVariable) (lines : List (List Char)) :
    List (List Char) :=
  lines.map (replaceVarsLine (sortBy nameLenLe p))

/-- `replaceUniqueWithShort` from main.go: replace every unique name by the
short name, in the list's current order. -/
def replaceUniqueWithShort (p : List PSVariable) (lines : List (List Char)) :
    List (List Char) :=
  lines.map (fun l => p.foldl (fun acc v => replaceAll v.UniqueName v.ShortName acc) l)

/-- The variable list as it stands when the substitutions run: `shortenVariables`
sorts by count, assigns unique names (which re-sorts by name length), generates
short names, and `replaceVariablesWithUnique` sorts by name length once more
(mutating the slice in Go). -/
def finalVars (uuids : List (List Char)) (lines : List (List Char)) :
    List PSVariable :=
  sortBy nameLenLe
    (generateShortNames (assignUniqueRandomNames uuids (sortBy countLe (getVariables lines))))

/-- `shortenVariables` from main.go: sort by count, assign unique names
(that call re-sorts by name length), generate short names, run the two
substitution passes.  `replaceVariablesWithUnique` re-sorts the slice by name
length (mutating it in Go), so `replaceUniqueWithShort` sees the re-sorted
order. -/
def shortenVariables (uuids : List (List Char)) (p : List PSVariable)
    (lines : List (List Char)) : List (List Char) :=
  let p2 := generateShortNames (assignUniqueRandomNames uuids (sortBy countLe p))
  replaceUniqueWithShort (sortBy nameLenLe p2) (replaceVariablesWithUnique p2 lines)

/-- `shortenAllVariableNames` from main.go. -/
def shortenAllVariableNames (uuids : List (List Char)) (lines : List (List Char)) :
    List (List Char) :=
  shortenVariables uuids (getVariables lines) lines

/-- The character loop of `stripComments`.  `prev` is `line[i-1]` (unread on
the first character, which the early returns guarantee is not the comment
marker).  `none` models the Go panic: in block-comment state, a `#` as the
last character makes Go read `line[i+1]` out of range (its guard
`len(line) >= i` is always true inside the loop).  In normal state, on `#`
with previous character `<`, Go retracts the already-copied `<` with
`minLine[:len(minLine)-1]`, which would also panic on an empty buffer
(`none`; unreachable, since that `<` was just copied). -/
def scanStripF : Nat → Char → List Char → Bool → List Char →
    Option (List Char × Bool)
  | _, _, [], multi, acc => some (acc.reverse, multi)
  | 0, _, _ :: _, _, _ => none
  | fuel + 1, prev, c :: cs, multi, acc =>
    if multi then
      if c = CHARComment then
        match cs with
        | [] => none
        | d :: ds =>
          if d = GTchar then scanStripF fuel d ds false acc
          else scanStripF fuel c cs true acc
      else scanStripF fuel c cs true acc
    else
      if c = CHARComment then
        if prev = ESCChar1 ∨ prev = ESCChar2 then scanStripF fuel c cs false (c :: acc)
        else if prev = LTchar then
          match acc with
          | [] => none
          | _ :: accTail => scanStripF fuel c cs true accTail
        else some (acc.reverse, false)
      else scanStripF fuel c cs false (c :: acc)

/-- The character loop with its fuel started at the line length (each step
consumes at least one character, so the fuel never runs out). -/
def scanStrip (prev : Char) (s : List Char) (multi : Bool) (acc : List Char) :
    Option (List Char × Bool) :=
  scanStripF s.length prev s multi acc

/-- `stripComments` from main.go: empty lines and lines whose first character
is the comment marker return an empty line with the state unchanged (these
early returns run before the state is consulted); otherwise the character
loop runs. -/
def stripComments (line : List Char) (multi : Bool) : Option (List Char × Bool) :=
  match line with
  | [] => some ([], multi)
  | c :: cs =>
    if c = CHARComment then some ([], multi)
    else scanStrip ' ' (c :: cs) multi []

/-- `stripAllComments` from main.go, threading the block-comment flag across
lines (initially false). -/
def stripAllCommentsFrom (lines : List (List Char)) (multi : Bool) :
    Option (List (List Char)) :=
  match lines with
  | [] => some []
  | l :: ls =>
    match stripComments l multi with
    | none => none
    | some (l2, m2) =>
      match stripAllCommentsFrom ls m2 with
      | none => none
      | some rest => some (l2 :: rest)

/-- `stripAllComments` from main.go. -/
def stripAllComments (lines : List (List Char)) : Option (List (List Char)) :=
  stripAllCommentsFrom lines false

/-- The fixed substitution table of `removeExtraSpaces`, in source order.
Note the line replacing a space before the minus is commented out in the
source; only `"- "` is listed for the minus token. -/
def spaceSubs : List (List Char × List Char) :=
  [(" =".data, "=".data), ("= ".data, "=".data),
   (" +".data, "+".data), ("+ ".data, "+".data),
   ("- ".data, "-".data),
   (" *".data, "*".data), ("* ".data, "*".data),
   (" -EQ".data, "-EQ".data), ("-EQ ".data, "-EQ".data),
   (" -GT".data, "-GT".data), ("-GT ".data, "-GT".data),
   (" -LT".data, "-LT".data), ("-LT ".data, "-LT".data),
   (" -NE".data, "-NE".data), ("-NE ".data, "-NE".data),
   (" -LE".data, "-LE".data), ("-LE ".data, "-LE".data),
   (" -GE".data, "-GE".data), ("-GE ".data, "-GE".data),
   (" /".data, "/".data), ("/ ".data, "/".data),
   ("( ".data, "(".data), (" (".data, "(".data),
   (" )".data, ")".data), (") ".data, ")".data),
   ("[ ".data, "[".data), (" [".data, "[".data),
   (" ]".data, "]".data), ("] ".data, "]".data),
   ("\x7b ".data, "\x7b".data), (" \x7b".data, "\x7b".data),
   (" \x7d".data, "\x7d".data), ("\x7d ".data, "\x7d".data),
   ("; ".data, ";".data), (" ;".data, ";".data)]

/-- The body of `removeExtraSpaces` on one line: each literal substitution is
applied once, in the fixed source order. -/
def removeExtraSpacesLine (l : List Char) : List Char :=
  spaceSubs.foldl (fun acc pr => replaceAll pr.1 pr.2 acc) l

/-- `removeExtraSpaces` from main.go. -/
def removeExtraSpaces (lines : List (List Char)) : List (List Char) :=
  lines.map removeExtraSpacesLine

/-- Go `unicode.IsSpace` restricted to the characters that can occur in the
ASCII inputs considered. -/
def isGoSpace (c : Char) : Bool :=
  c.toNat == 32 || c.toNat == 9 || c.toNat == 10 || c.toNat == 11 ||
  c.toNat == 12 || c.toNat == 13

/-- Go `strings.TrimSuffix` (removes one copy of the suffix if present). -/
def trimSuffixOne (l suf : List Char) : List Char :=
  if suf.isSuffixOf l then l.take (l.length - suf.length) else l

/-- The trimming prelude of `removeAllNewLines`: `strings.TrimSpace`, then
`TrimSuffix "\n"`, then `TrimSuffix "\r"`. -/
def goTrim (l : List Char) : List Char :=
  trimSuffixOne (trimSuffixOne (((l.dropWhile isGoSpace).reverse.dropWhile isGoSpace).reverse)
    ['\n']) ['\r']

/-- The switch of `removeAllNewLines` on the trimmed line's last character:
`}` `{` `(` `;` pass through unchanged, `]` gets a line break, a line ending
in `M` is checked for the `PARAM` suffix — when it is at least five
characters long it passes through unchanged whether or not the suffix is
`PARAM` (only shorter `M`-lines fall to the semicolon) — and every other
line gets a semicolon. -/
def joinTerminate (l : List Char) : List Char :=
  let c := l.getLastD ' '
  if c = '\x7d' ∨ c = '\x7b' ∨ c = '(' ∨ c = ';' then l
  else if c = ']' then l ++ ['\n']
  else if c = 'M' then
    if 5 ≤ l.length then
      if l.drop (l.length - 5) = "PARAM".data then l else l
    else l ++ [';']
  else l ++ [';']

/-- The per-line step of `removeAllNewLines`: trim, drop the line if empty,
otherwise terminate it per the switch. -/
def joinLine (s : List Char) : Option (List Char) :=
  let l := goTrim s
  if l = [] then none else some (joinTerminate l)

/-- `removeAllNewLines` from main.go. -/
def removeAllNewLines (lines : List (List Char)) : List (List Char) :=
  lines.filterMap joinLine

/-- The pipeline `main` runs on the line sequence: strip comments, shorten
variable names, compact spaces, join lines.  `none` is an aborted (panicking)
run. -/
def pipeline (uuids : List (List Char)) (lines : List (List Char)) :
    Option (List (List Char)) :=
  match stripAllComments lines with
  | none => none
  | some ls => some (removeAllNewLines (removeExtraSpaces (shortenAllVariableNames uuids ls)))

/-! ### Basic facts about characters, `itoa` and the short-name sequence -/

theorem toNatOfNatSmall (n : Nat) (h : n < 55296) : (Char.ofNat n).toNat = n := by
  rw [Char.ofNat, dif_pos (Or.inl h)]
  rfl

theorem itoaF_irrel : ∀ f g n, n < f → n < g → itoaF f n = itoaF g n := by
  intro f
  induction f with
  | zero => omega
  | succ f ih =>
    intro g n hf hg
    match g, hg with
    | g + 1, _ =>
      show itoaF (f + 1) n = itoaF (g + 1) n
      by_cases h10 : n < 10
      · simp [itoaF, h10]
      · have hdiv : n / 10 < n := Nat.div_lt_self (by omega) (by omega)
        simp only [itoaF, if_neg h10]
        rw [ih g (n / 10) (by omega) (by omega)]

theorem itoa_unfold (n : Nat) :
    itoa n = if n < 10 then [Char.ofNat (48 + n)]
      else itoa (n / 10) ++ [Char.ofNat (48 + n % 10)] := by
  show itoaF (n + 1) n = _
  by_cases h10 : n < 10
  · simp [itoaF, h10]
  · have hdiv : n / 10 < n := Nat.div_lt_self (by omega) (by omega)
    simp only [itoaF, if_neg h10]
    rw [itoaF_irrel n (n / 10 + 1) (n / 10) (by omega) (by omega)]
    rfl

theorem itoa_ne_nil (n : Nat) : itoa n ≠ [] := by
  rw [itoa_unfold]
  by_cases h10 : n < 10 <;> simp [h10]

theorem itoa_digits : ∀ n, ∀ c ∈ itoa n, 48 ≤ c.toNat ∧ c.toNat ≤ 57 := by
  intro n
  induction n using Nat.strong_induction_on with
  | _ n ih =>
    intro c hc
    rw [itoa_unfold] at hc
    by_cases h10 : n < 10
    · rw [if_pos h10, List.mem_singleton] at hc
      subst hc
      rw [toNatOfNatSmall (48 + n) (by omega)]
      omega
    · rw [if_neg h10, List.mem_append] at hc
      rcases hc with hc | hc
      · exact ih (n / 10) (Nat.div_lt_self (by omega) (by omega)) c hc
      · rw [List.mem_singleton] at hc
        subst hc
        rw [toNatOfNatSmall (48 + n % 10) (by omega)]
        omega

theorem itoa_inj : ∀ m, ∀ n, itoa m = itoa n → m = n := by
  intro m
  induction m using Nat.strong_induction_on with
  | _ m ih =>
    intro n h
    rw [itoa_unfold m, itoa_unfold n] at h
    by_cases hm : m < 10 <;> by_cases hn : n < 10
    · rw [if_pos hm, if_pos hn] at h
      have : (Char.ofNat (48 + m)).toNat = (Char.ofNat (48 + n)).toNat := by
        rw [List.cons.injEq] at h
        rw [h.1]
      rw [toNatOfNatSmall (48 + m) (by omega), toNatOfNatSmall (48 + n) (by omega)] at this
      omega
    · rw [if_pos hm, if_neg hn] at h
      have h1 := congrArg List.length h
      have h2 : 0 < (itoa (n / 10)).length := List.length_pos.mpr (itoa_ne_nil (n / 10))
      simp only [List.length_append, List.length_cons, List.length_nil] at h1
      omega
    · rw [if_neg hm, if_pos hn] at h
      have h1 := congrArg List.length h
      have h2 : 0 < (itoa (m / 10)).length := List.length_pos.mpr (itoa_ne_nil (m / 10))
      simp only [List.length_append, List.length_cons, List.length_nil] at h1
      omega
    · rw [if_neg hm, if_neg hn] at h
      obtain ⟨hpre, hlast⟩ := List.append_inj' h (by simp)
      have hdiv : m / 10 = n / 10 :=
        ih (m / 10) (Nat.div_lt_self (by omega) (by omega)) (n / 10) hpre
      have hmod : (Char.ofNat (48 + m % 10)).toNat = (Char.ofNat (48 + n % 10)).toNat := by
        rw [List.cons.injEq] at hlast
        rw [hlast.1]
      rw [toNatOfNatSmall (48 + m % 10) (by omega),
        toNatOfNatSmall (48 + n % 10) (by omega)] at hmod
      omega

theorem varShortNames_length : varShortNames.length = 51 := by decide

theorem varShortNames_nodup : varShortNames.Nodup := by decide

theorem varShortNames_no_digit :
    ∀ c ∈ varShortNames, ¬(48 ≤ c.toNat ∧ c.toNat ≤ 57) := by decide

theorem slot_letter_mem (n : Nat) : varShortNames.getD (n % 51) ' ' ∈ varShortNames := by
  have h : n % 51 < varShortNames.length := by rw [varShortNames_length]; omega
  rw [List.getD_eq_getElem _ ' ' h]
  exact List.getElem_mem h

theorem slotName_inj {m n : Nat} (h : slotName m = slotName n) : m = n := by
  rw [slotName, slotName, List.cons.injEq, List.cons.injEq] at h
  obtain ⟨-, hletter, hsuffix⟩ := h
  have hm51 : m % 51 < varShortNames.length := by rw [varShortNames_length]; omega
  have hn51 : n % 51 < varShortNames.length := by rw [varShortNames_length]; omega
  rw [List.getD_eq_getElem _ ' ' hm51, List.getD_eq_getElem _ ' ' hn51] at hletter
  have hmod : m % 51 = n % 51 := (List.Nodup.getElem_inj_iff varShortNames_nodup).mp hletter
  by_cases hm : 51 ≤ m <;> by_cases hn : 51 ≤ n
  · rw [if_pos hm, if_pos hn] at hsuffix
    have := itoa_inj _ _ hsuffix
    omega
  · rw [if_pos hm, if_neg hn] at hsuffix
    exact absurd hsuffix (itoa_ne_nil (m / 51 - 1))
  · rw [if_neg hm, if_pos hn] at hsuffix
    exact absurd hsuffix.symm (itoa_ne_nil (n / 51 - 1))
  · omega

/-- Shape test: a dollar sign, one alphabet letter, then only decimal digits
— every name the allocation sequence can produce looks like this. -/
def slotShapedLike (s : List Char) : Bool :=
  match s with
  | a :: c :: rest =>
    a = SIGIL && varShortNames.contains c &&
      rest.all (fun d => decide (48 ≤ d.toNat) && decide (d.toNat ≤ 57))
  | _ => false

theorem slotShaped_slotName (n : Nat) : slotShapedLike (slotName n) = true := by
  rw [slotName, slotShapedLike]
  simp only [Bool.and_eq_true, decide_eq_true_eq, List.all_eq_true]
  refine ⟨⟨by simp, ?_⟩, ?_⟩
  · have := slot_letter_mem n
    simpa using this
  · intro d hd
    by_cases h51 : 51 ≤ n
    · rw [if_pos h51] at hd
      have := itoa_digits (n / 51 - 1) d hd
      simp [this.1, this.2]
    · rw [if_neg h51] at hd
      simp at hd

theorem reserved_not_slotShaped : ∀ r ∈ reservedPSVariables, slotShapedLike r = false := by
  decide

theorem slotName_not_reserved (n : Nat) : slotName n ∉ reservedPSVariables := by
  intro hmem
  have h1 := reserved_not_slotShaped _ hmem
  rw [slotShaped_slotName n] at h1
  simp at h1

/-! ### `replaceAll` is the identity when a pattern character is absent -/

theorem replaceAllF_id {c : Char} {pat rep : List Char} (hc : c ∈ pat) :
    ∀ fuel s, c ∉ s → replaceAllF pat rep fuel s = s := by
  intro fuel
  induction fuel with
  | zero => intro s _; cases s <;> rfl
  | succ fuel ih =>
    intro s hs
    cases s with
    | nil => rfl
    | cons a as =>
      rw [replaceAllF]
      have hnp : ¬ pat.isPrefixOf (a :: as) = true := by
        intro hp
        exact hs ((List.isPrefixOf_iff_prefix.mp hp).subset hc)
      rw [if_neg hnp, ih as (fun h => hs (List.mem_cons_of_mem a h))]

theorem replaceAll_id {c : Char} {pat rep : List Char} (hc : c ∈ pat)
    (s : List Char) (hs : c ∉ s) : replaceAll pat rep s = s := by
  rw [replaceAll]
  by_cases hp : pat = []
  · rw [if_pos hp]
  · rw [if_neg hp, replaceAllF_id hc s.length s hs]

/-! ### The stable sort permutes its input -/

theorem insertBy_perm {α : Type} (le : α → α → Bool) (a : α) :
    ∀ l, (insertBy le a l).Perm (a :: l) := by
  intro l
  induction l with
  | nil => exact List.Perm.refl _
  | cons b bs ih =>
    rw [insertBy]
    by_cases h : le a b
    · rw [if_pos h]
    · rw [if_neg h]
      exact (ih.cons b).trans (List.Perm.swap a b bs)

theorem sortBy_perm {α : Type} (le : α → α → Bool) :
    ∀ l, (sortBy le l).Perm l := by
  intro l
  induction l with
  | nil => exact List.Perm.refl _
  | cons a as ih => exact (insertBy_perm le a (sortBy le as)).trans (ih.cons a)

theorem mem_sortBy {α : Type} {le : α → α → Bool} {a : α} {l : List α} :
    a ∈ sortBy le l ↔ a ∈ l := (sortBy_perm le l).mem_iff

/-! ### Discovery facts: the tally has pairwise-distinct keys, and every
discovered name starts with the sigil or the escape backtick -/

theorem map_fst_bump (acc : List (List Char × Nat)) (m : List Char) :
    (acc.map (fun kv => if kv.1 = m then (kv.1, kv.2 + 1) else kv)).map Prod.fst =
      acc.map Prod.fst := by
  induction acc with
  | nil => rfl
  | cons kv rest ih =>
    simp only [List.map_cons, ih, List.cons.injEq, and_true]
    by_cases h : kv.1 = m <;> simp [h]

theorem tally_fst_nodup : ∀ ms acc, (acc.map Prod.fst).Nodup →
    ((tally ms acc).map Prod.fst).Nodup := by
  intro ms
  induction ms with
  | nil => intro acc h; exact h
  | cons m rest ih =>
    intro acc h
    rw [tally]
    by_cases hc : (acc.map Prod.fst).contains m
    · rw [if_pos hc]
      exact ih _ (by rw [map_fst_bump]; exact h)
    · rw [if_neg hc]
      refine ih _ ?_
      have hm : m ∉ acc.map Prod.fst := by simpa using hc
      simp [List.nodup_append, h, hm]

theorem mem_tally_fst : ∀ ms acc k, k ∈ (tally ms acc).map Prod.fst →
    k ∈ acc.map Prod.fst ∨ k ∈ ms := by
  intro ms
  induction ms with
  | nil => intro acc k h; exact Or.inl h
  | cons m rest ih =>
    intro acc k h
    rw [tally] at h
    by_cases hc : (acc.map Prod.fst).contains m
    · rw [if_pos hc] at h
      rcases ih _ k h with h2 | h2
      · rw [map_fst_bump] at h2
        exact Or.inl h2
      · exact Or.inr (List.mem_cons_of_mem m h2)
    · rw [if_neg hc] at h
      rcases ih _ k h with h2 | h2
      · rw [List.map_append, List.mem_append] at h2
        rcases h2 with h3 | h3
        · exact Or.inl h3
        · simp at h3
          exact Or.inr (by simp [h3])
      · exact Or.inr (List.mem_cons_of_mem m h2)

theorem getVariables_origNames (lines : List (List Char)) :
    (getVariables lines).map (·.OriginalName) = (tally (allVarNames lines) []).map Prod.fst := by
  rw [getVariables, List.map_map]
  rfl

theorem getVariables_nodup (lines : List (List Char)) :
    ((getVariables lines).map (·.OriginalName)).Nodup := by
  rw [getVariables_origNames]
  exact tally_fst_nodup _ [] (by simp)

theorem mkVar_reserved (kv : List Char × Nat) (h : (mkVar kv).Reserved = true) :
    (mkVar kv).ShortName = (mkVar kv).OriginalName ∧
      ((mkVar kv).OriginalName ∈ reservedPSVariables ∨
        (mkVar kv).OriginalName.head? = some ESCChar2) := by
  revert h
  rw [mkVar]
  simp only
  intro h
  rw [if_pos h]
  refine ⟨rfl, ?_⟩
  rw [Bool.or_eq_true] at h
  rcases h with h | h
  · exact Or.inl (by simpa using h)
  · exact Or.inr (by simpa using h)

theorem mem_getVariables_reserved {lines : List (List Char)} {v : PSVariable}
    (hv : v ∈ getVariables lines) (hr : v.Reserved = true) :
    v.ShortName = v.OriginalName ∧
      (v.OriginalName ∈ reservedPSVariables ∨ v.OriginalName.head? = some ESCChar2) := by
  rw [getVariables, List.mem_map] at hv
  obtain ⟨kv, -, rfl⟩ := hv
  exact mkVar_reserved kv hr

theorem findMatchesF_head : ∀ fuel l, ∀ m ∈ findMatchesF fuel l,
    m.head? = some ESCChar2 ∨ m.head? = some SIGIL := by
  intro fuel
  induction fuel with
  | zero => intro l m h; simp [findMatchesF] at h
  | succ fuel ih =>
    intro l m h
    cases l with
    | nil => simp [findMatchesF] at h
    | cons c cs =>
      simp only [findMatchesF] at h
      by_cases hb : c = ESCChar2
      · rw [if_pos hb] at h
        cases cs with
        | nil => simp at h
        | cons d ds =>
          dsimp only at h
          by_cases hd : d = SIGIL
          · rw [if_pos hd] at h
            rcases List.mem_cons.mp h with h2 | h2
            · subst h2; exact Or.inl (by simp [hb])
            · exact ih _ m h2
          · rw [if_neg hd] at h
            exact ih _ m h
      · rw [if_neg hb] at h
        by_cases hs : c = SIGIL
        · rw [if_pos hs] at h
          rcases List.mem_cons.mp h with h2 | h2
          · subst h2; exact Or.inr (by simp [hs])
          · exact ih _ m h2
        · rw [if_neg hs] at h
          exact ih _ m h

theorem goUpperChar_escape : goUpperChar ESCChar2 = ESCChar2 := by decide

theorem goUpperChar_sigil : goUpperChar SIGIL = SIGIL := by decide

theorem mem_allVarNames_head {lines : List (List Char)} {k : List Char}
    (h : k ∈ allVarNames lines) :
    k.head? = some ESCChar2 ∨ k.head? = some SIGIL := by
  rw [allVarNames, List.mem_flatMap] at h
  obtain ⟨l, -, hk⟩ := h
  rw [List.mem_map] at hk
  obtain ⟨m, hm, rfl⟩ := hk
  rcases findMatchesF_head _ _ m hm with h2 | h2
  · left
    cases m with
    | nil => simp at h2
    | cons c cs =>
      simp at h2
      subst h2
      simp [listToUpper, goUpperChar_escape]
  · right
    cases m with
    | nil => simp at h2
    | cons c cs =>
      simp at h2
      subst h2
      simp [listToUpper, goUpperChar_sigil]

theorem mem_getVariables_head {lines : List (List Char)} {v : PSVariable}
    (hv : v ∈ getVariables lines) :
    v.OriginalName.head? = some ESCChar2 ∨ v.OriginalName.head? = some SIGIL := by
  have h1 : v.OriginalName ∈ (getVariables lines).map (·.OriginalName) :=
    List.mem_map.mpr ⟨v, hv, rfl⟩
  rw [getVariables_origNames] at h1
  rcases mem_tally_fst _ [] _ h1 with h2 | h2
  · simp at h2
  · exact mem_allVarNames_head h2

theorem mem_getVariables_uniq {lines : List (List Char)} {v : PSVariable}
    (hv : v ∈ getVariables lines) : v.UniqueName = [] := by
  rw [getVariables, List.mem_map] at hv
  obtain ⟨kv, -, rfl⟩ := hv
  rfl

/-! ### Facts about the short-name generation loop -/

theorem slot_eq (it : Nat) :
    (SIGIL :: varShortNames.getD (it - 51 * (it / 51)) ' ' ::
      (if 0 < it / 51 then itoa (it / 51 - 1) else [])) = slotName it := by
  have h1 : it - 51 * (it / 51) = it % 51 := by omega
  rw [slotName, h1]
  by_cases h : 51 ≤ it
  · rw [if_pos h, if_pos (show 0 < it / 51 by omega)]
  · rw [if_neg h, if_neg (show ¬ 0 < it / 51 by omega)]

theorem cnt2_eq (it : Nat) :
    (if (it + 1) % 51 = 0 then it / 51 + 1 else it / 51) = (it + 1) / 51 := by
  by_cases h : (it + 1) % 51 = 0
  · rw [if_pos h]; omega
  · rw [if_neg h]; omega

theorem genAux_map_uniq : ∀ (p : List PSVariable) (it cnt : Nat),
    (genAux p it cnt).map (·.UniqueName) = p.map (·.UniqueName) := by
  intro p
  induction p with
  | nil => intro it cnt; rfl
  | cons w rest ih =>
    intro it cnt
    simp only [genAux]
    by_cases hr : w.Reserved
    · rw [if_pos hr]
      simp [ih]
    · rw [if_neg hr]
      simp [ih]

theorem mem_genAux : ∀ (p : List PSVariable) (it cnt : Nat), ∀ v ∈ genAux p it cnt,
    ∃ w ∈ p, v.OriginalName = w.OriginalName ∧ v.UniqueName = w.UniqueName ∧
      v.Reserved = w.Reserved ∧ (v.Reserved = true → v = w) := by
  intro p
  induction p with
  | nil => intro it cnt v hv; simp [genAux] at hv
  | cons w rest ih =>
    intro it cnt v hv
    simp only [genAux] at hv
    by_cases hr : w.Reserved
    · rw [if_pos hr] at hv
      rcases List.mem_cons.mp hv with h2 | h2
      · exact ⟨w, List.mem_cons_self w rest, by simp [h2]⟩
      · obtain ⟨x, hx, hfacts⟩ := ih it cnt v h2
        exact ⟨x, List.mem_cons_of_mem w hx, hfacts⟩
    · rw [if_neg hr] at hv
      rcases List.mem_cons.mp hv with h2 | h2
      · refine ⟨w, List.mem_cons_self w rest, by simp [h2], by simp [h2], by simp [h2], ?_⟩
        intro hres
        rw [h2] at hres
        simp at hres
        exact absurd hres hr
      · obtain ⟨x, hx, hfacts⟩ := ih (it + 1) _ v h2
        exact ⟨x, List.mem_cons_of_mem w hx, hfacts⟩

theorem mem_genAux_short : ∀ (p : List PSVariable) (it : Nat), ∀ v ∈ genAux p it (it / 51),
    v.Reserved = true ∨ ∃ j, it ≤ j ∧ v.ShortName = slotName j := by
  intro p
  induction p with
  | nil => intro it v hv; simp [genAux] at hv
  | cons w rest ih =>
    intro it v hv
    simp only [genAux] at hv
    by_cases hr : w.Reserved
    · rw [if_pos hr] at hv
      rcases List.mem_cons.mp hv with h2 | h2
      · subst h2; exact Or.inl hr
      · exact ih it v h2
    · rw [if_neg hr] at hv
      rcases List.mem_cons.mp hv with h2 | h2
      · refine Or.inr ⟨it, Nat.le_refl it, ?_⟩
        rw [h2]
        exact slot_eq it
      · rw [cnt2_eq] at h2
        rcases ih (it + 1) v h2 with h3 | ⟨j, hj, hs⟩
        · exact Or.inl h3
        · exact Or.inr ⟨j, by omega, hs⟩

theorem genAux_filter_short : ∀ (p : List PSVariable) (it : Nat),
    ((genAux p it (it / 51)).filter (fun v => !v.Reserved)).map (·.ShortName) =
      (List.range' it ((p.filter (fun v => !v.Reserved)).length)).map slotName := by
  intro p
  induction p with
  | nil => intro it; rfl
  | cons w rest ih =>
    intro it
    simp only [genAux]
    by_cases hr : w.Reserved
    · rw [if_pos hr]
      rw [List.filter_cons_of_neg (by simp [hr]), List.filter_cons_of_neg (by simp [hr])]
      exact ih it
    · rw [if_neg hr]
      rw [List.filter_cons_of_pos (by simp; exact Bool.of_not_eq_true hr),
        List.filter_cons_of_pos (by simp; exact Bool.of_not_eq_true hr)]
      simp only [List.map_cons, List.length_cons]
      rw [List.range'_succ it _ 1, List.map_cons]
      rw [cnt2_eq, ih (it + 1)]
      simp only [List.cons.injEq, and_true]
      exact slot_eq it

theorem genAux_short_nodup : ∀ (p : List PSVariable) (it : Nat),
    (p.map (·.OriginalName)).Nodup →
    (∀ v ∈ p, v.Reserved = true →
      v.ShortName = v.OriginalName ∧ slotShapedLike v.OriginalName = false) →
    ((genAux p it (it / 51)).map (·.ShortName)).Nodup := by
  intro p
  induction p with
  | nil => intro it _ _; simp [genAux]
  | cons w rest ih =>
    intro it hnd hres
    simp only [List.map_cons, List.nodup_cons] at hnd
    simp only [genAux]
    by_cases hr : w.Reserved
    · rw [if_pos hr]
      simp only [List.map_cons, List.nodup_cons]
      constructor
      · intro hmem
        rw [List.mem_map] at hmem
        obtain ⟨u, hu, hshort⟩ := hmem
        have hwres := hres w (List.mem_cons_self w rest) hr
        rcases mem_genAux_short rest it u hu with hur | ⟨j, -, hus⟩
        · obtain ⟨x, hx, -, -, hrx, heq⟩ := mem_genAux rest it _ u hu
          have hux : u = x := heq hur
          subst hux
          have hxres := hres u (List.mem_cons_of_mem w hx) hur
          rw [hxres.1, hwres.1] at hshort
          exact hnd.1 (hshort ▸ List.mem_map.mpr ⟨u, hx, rfl⟩)
        · rw [hus, hwres.1] at hshort
          have h1 := slotShaped_slotName j
          rw [hshort, hwres.2] at h1
          simp at h1
      · exact ih it hnd.2 (fun v hv => hres v (List.mem_cons_of_mem w hv))
    · rw [if_neg hr]
      simp only [List.map_cons, List.nodup_cons]
      constructor
      · intro hmem
        rw [List.mem_map] at hmem
        obtain ⟨u, hu, hshort⟩ := hmem
        rw [cnt2_eq] at hu
        simp only [slot_eq it] at hshort
        rcases mem_genAux_short rest (it + 1) u hu with hur | ⟨j, hj, hus⟩
        · obtain ⟨x, hx, -, -, hrx, heq⟩ := mem_genAux rest (it + 1) _ u hu
          have hux : u = x := heq hur
          subst hux
          have hxres := hres u (List.mem_cons_of_mem w hx) hur
          rw [hxres.1] at hshort
          have h1 := slotShaped_slotName it
          rw [← hshort, hxres.2] at h1
          simp at h1
        · rw [hus] at hshort
          have := slotName_inj hshort
          omega
      · rw [cnt2_eq]
        exact ih (it + 1) hnd.2 (fun v hv => hres v (List.mem_cons_of_mem w hv))

/-! ### Facts about unique-name assignment -/

theorem escape_not_slotShaped {s : List Char} (h : s.head? = some ESCChar2) :
    slotShapedLike s = false := by
  cases s with
  | nil => simp at h
  | cons a rest =>
    simp at h
    subst h
    cases rest with
    | nil => rfl
    | cons b rest2 =>
      rw [slotShapedLike]
      simp [show ¬ ESCChar2 = SIGIL by decide]

theorem assignUnique_origNames (uuids : List (List Char)) (p : List PSVariable) :
    ((assignUniqueRandomNames uuids p).map (·.OriginalName)).Perm
      (p.map (·.OriginalName)) := by
  rw [assignUniqueRandomNames]
  refine ((sortBy_perm _ _).map _).trans ?_
  rw [List.map_map]
  have : (p.zip (List.range p.length)).map
      ((fun v : PSVariable => v.OriginalName) ∘
        (fun vi : PSVariable × Nat =>
          { vi.1 with UniqueName := SIGIL :: '~' :: '~' :: listToUpper (uuids.getD vi.2 []) })) =
      ((p.zip (List.range p.length)).map Prod.fst).map (·.OriginalName) := by
    rw [List.map_map]
    rfl
  rw [this, List.map_fst_zip p (List.range p.length) (by simp)]

theorem mem_assignUnique {uuids : List (List Char)} {p : List PSVariable} {v : PSVariable}
    (hv : v ∈ assignUniqueRandomNames uuids p) :
    ∃ w ∈ p, v.OriginalName = w.OriginalName ∧ v.ShortName = w.ShortName ∧
      v.Reserved = w.Reserved ∧ v.Count = w.Count := by
  rw [assignUniqueRandomNames, mem_sortBy, List.mem_map] at hv
  obtain ⟨wi, hwi, rfl⟩ := hv
  exact ⟨wi.1, (List.of_mem_zip hwi).1, rfl, rfl, rfl, rfl⟩

theorem assignUnique_uniq_nodup (uuids : List (List Char)) (p : List PSVariable)
    (h1 : (uuids.map listToUpper).Nodup) (h2 : p.length ≤ uuids.length) :
    ((assignUniqueRandomNames uuids p).map (·.UniqueName)).Nodup := by
  rw [assignUniqueRandomNames]
  refine List.Perm.nodup (((sortBy_perm _ _).map _).symm) ?_
  rw [List.map_map]
  have heq : (p.zip (List.range p.length)).map
      ((fun v : PSVariable => v.UniqueName) ∘
        (fun vi : PSVariable × Nat =>
          { vi.1 with UniqueName := SIGIL :: '~' :: '~' :: listToUpper (uuids.getD vi.2 []) })) =
      ((p.zip (List.range p.length)).map Prod.snd).map
        (fun i => SIGIL :: '~' :: '~' :: listToUpper (uuids.getD i [])) := by
    rw [List.map_map]
    rfl
  rw [heq, List.map_snd_zip p (List.range p.length) (by simp)]
  refine List.Nodup.map_on ?_ (List.nodup_range p.length)
  intro i hi j hj hij
  rw [List.mem_range] at hi hj
  simp only [List.cons.injEq, true_and] at hij
  rw [List.getD_eq_getElem uuids [] (by omega), List.getD_eq_getElem uuids [] (by omega)] at hij
  have hmap : (uuids.map listToUpper).get ⟨i, by simp; omega⟩ =
      (uuids.map listToUpper).get ⟨j, by simp; omega⟩ := by
    simp only [List.get_eq_getElem, List.getElem_map]
    exact hij
  have h3 := (List.Nodup.get_inj_iff h1).mp hmap
  simpa using h3

/-! ### Facts about the comment-stripping scan -/

theorem scanStripF_copies : ∀ (fuel : Nat) (rest : List Char) (prev : Char) (acc : List Char),
    rest.length ≤ fuel → CHARComment ∉ rest →
    scanStripF fuel prev rest false acc = some (acc.reverse ++ rest, false) := by
  intro fuel
  induction fuel with
  | zero =>
    intro rest prev acc hlen _
    have h0 : rest = [] := List.length_eq_zero.mp (by omega)
    subst h0
    simp [scanStripF]
  | succ fuel ih =>
    intro rest prev acc hlen hmem
    cases rest with
    | nil => simp [scanStripF]
    | cons c cs =>
      have hc : ¬ c = CHARComment := fun h => hmem (h ▸ List.mem_cons_self c cs)
      simp only [scanStripF, Bool.false_eq_true, if_false, if_neg hc]
      rw [ih cs c (c :: acc) (by simp at hlen; omega)
        (fun h => hmem (List.mem_cons_of_mem c h))]
      simp

theorem scanStripF_multi_skip (fuel : Nat) (prev c : Char) (cs acc : List Char)
    (hc : ¬ c = CHARComment) :
    scanStripF (fuel + 1) prev (c :: cs) true acc = scanStripF fuel c cs true acc := by
  simp [scanStripF, hc]

theorem scanStripF_multi_close (fuel : Nat) (prev : Char) (ds acc : List Char) :
    scanStripF (fuel + 1) prev (CHARComment :: GTchar :: ds) true acc =
      scanStripF fuel GTchar ds false acc := by
  simp [scanStripF]

example : stripComments "abc # tail".data false = some ("abc ".data, false) := by decide

/-! ### The renaming substitutions fix lines without sigil or backtick -/

theorem goUpperChar_eq_of (c t : Char) (ht : ¬(65 ≤ t.toNat ∧ t.toNat ≤ 90))
    (h : goUpperChar c = t) : c = t := by
  rw [goUpperChar] at h
  by_cases hc : 97 ≤ c.toNat ∧ c.toNat ≤ 122
  · rw [if_pos hc] at h
    have h2 := congrArg Char.toNat h
    rw [toNatOfNatSmall (c.toNat - 32) (by omega)] at h2
    exact absurd (by omega) ht
  · rw [if_neg hc] at h
    exact h

theorem listToUpper_not_mem {t : Char} (ht : ¬(65 ≤ t.toNat ∧ t.toNat ≤ 90))
    {l : List Char} (h : t ∉ l) : t ∉ listToUpper l := by
  intro hmem
  rw [listToUpper, List.mem_map] at hmem
  obtain ⟨c, hc, hcu⟩ := hmem
  exact h ((goUpperChar_eq_of c t ht hcu) ▸ hc)

theorem replaceAll_nil (pat rep : List Char) : replaceAll pat rep [] = [] := by
  rw [replaceAll]
  by_cases h : pat = []
  · rw [if_pos h]
  · rw [if_neg h]
    rfl

theorem foldl_replace_nil (vars : List PSVariable) (get rep : PSVariable → List Char) :
    vars.foldl (fun acc v => replaceAll (get v) (rep v) acc) [] = [] := by
  induction vars with
  | nil => rfl
  | cons v rest ih =>
    rw [List.foldl_cons, replaceAll_nil]
    exact ih

theorem mem_of_headSome {α : Type} {l : List α} {a : α} (h : l.head? = some a) : a ∈ l := by
  cases l with
  | nil => simp at h
  | cons b bs =>
    simp at h
    subst h
    exact List.mem_cons_self b bs

theorem foldl_replace_id (vars : List PSVariable) (get rep : PSVariable → List Char)
    (s : List Char)
    (hv : ∀ v ∈ vars, (get v).head? = some SIGIL ∨ (get v).head? = some ESCChar2)
    (hs : SIGIL ∉ s) (hb : ESCChar2 ∉ s) :
    vars.foldl (fun acc v => replaceAll (get v) (rep v) acc) s = s := by
  induction vars with
  | nil => rfl
  | cons v rest ih =>
    rw [List.foldl_cons]
    have hstep : replaceAll (get v) (rep v) s = s := by
      rcases hv v (List.mem_cons_self v rest) with h | h
      · exact replaceAll_id (mem_of_headSome h) s hs
      · exact replaceAll_id (mem_of_headSome h) s hb
    rw [hstep]
    exact ih (fun w hw => hv w (List.mem_cons_of_mem v hw))

theorem getD_nil_map (f : List Char → List Char) (hf : f [] = [])
    (l : List (List Char)) (i : Nat) : (l.map f).getD i [] = f (l.getD i []) := by
  by_cases hi : i < l.length
  · rw [List.getD_eq_getElem _ _ (by simpa using hi), List.getElem_map,
      List.getD_eq_getElem _ _ hi]
  · rw [List.getD_eq_default _ _ (by simpa using hi), List.getD_eq_default _ _ (by omega),
      hf]

theorem mem_assignUnique_uniqHead {uuids : List (List Char)} {p : List PSVariable}
    {v : PSVariable} (hv : v ∈ assignUniqueRandomNames uuids p) :
    v.UniqueName.head? = some SIGIL := by
  rw [assignUniqueRandomNames, mem_sortBy, List.mem_map] at hv
  obtain ⟨wi, -, rfl⟩ := hv
  rfl

/-! ### Claim theorems -/

/-- Claim C2, counterexample: a line that begins with the comment marker and
the block-close marker, processed in the InBlockComment state, does not close
the block comment — the early return fires first, yields an empty line and
leaves the state InBlockComment, contradicting the claim that the stripper
"transitions to Normal and copies the text following the close marker
including when the close sequence is the first thing on the line". -/
theorem C2_counterexample :
    stripComments "#> code".data true = some ([], true) ∧
    (([] : List Char), true) ≠ (" code".data, false) := by decide

/-- Claim C2, amended: the empty-line and leading-comment-marker early
returns apply in BOTH states (an empty line, or a line whose first character
is the comment marker, yields an empty output line with the state unchanged);
when the close sequence appears after the first character of a line scanned
in InBlockComment, the stripper transitions to Normal and copies the
following text (here stated for a remainder free of further comment
markers). -/
theorem C2_amended :
    (∀ (line : List Char) (multi : Bool),
      line = [] ∨ line.head? = some CHARComment →
      stripComments line multi = some ([], multi)) ∧
    (∀ (c : Char) (rest : List Char), c ≠ CHARComment → CHARComment ∉ rest →
      stripComments (c :: CHARComment :: GTchar :: rest) true = some (rest, false)) := by
  constructor
  · intro line multi h
    rcases h with h | h
    · subst h; rfl
    · cases line with
      | nil => simp at h
      | cons a as =>
        simp at h
        subst h
        rw [stripComments]
        rw [if_pos rfl]
  · intro c rest hc hmem
    rw [stripComments]
    rw [if_neg hc, scanStrip]
    simp only [List.length_cons]
    rw [scanStripF_multi_skip (rest.length + 1 + 1) ' ' c _ [] hc]
    rw [scanStripF_multi_close (rest.length + 1) c rest []]
    rw [scanStripF_copies (rest.length + 1) rest GTchar [] (by omega) hmem]
    simp

/-- Claim C2, witness for the amended theorem at concrete inputs: a line
"#x" in InBlockComment state yields an empty line with the state unchanged,
and a line "x#>ab" in InBlockComment state closes the comment and copies
"ab". -/
theorem C2_amended_witness :
    stripComments "#x".data true = some ([], true) ∧
    stripComments ('x' :: CHARComment :: GTchar :: "ab".data) true = some ("ab".data, false) :=
  ⟨C2_amended.1 "#x".data true (Or.inr (by decide)),
   C2_amended.2 'x' "ab".data (by decide) (by decide)⟩

/-- Claim C4: the comment stripper is NOT total — on a line processed in the
InBlockComment state whose last character is the comment marker, the Go code
reads `line[i+1]` with `i+1 = len(line)` (its bounds guard `len(line) >= i`
is always true), an index out of range, so the run panics.  Here line one
opens a block comment and line two is "ab#": the model returns `none` (the
panicking run). -/
theorem C4_strip_panics :
    stripAllComments ["<#".data, "ab#".data] = none ∧
    stripComments "<#".data false = some ([], true) := by decide

/-- Claim C8, counterexample: the substitution for a space before the minus
token is commented out in the source, so the listed pattern
"<space><token>" for `-` survives `removeExtraSpaces` — on input "X -Y" the
line is returned unchanged and still contains " -". -/
theorem C8_counterexample :
    removeExtraSpaces ["X -Y".data] = ["X -Y".data] ∧
    (" -".data).IsInfix ("X -Y".data) := by decide

/-- Claim C8, amended: each listed substitution is applied exactly once per
line (a single left-to-right replace-all, in the fixed source order, with no
fixed-point iteration), and for the minus token only "<token><space>" is
listed: a single space adjacent to `=` (either side) or after `-` is
removed, a space before `-` is kept, and a run of two spaces before `=`
leaves one residual listed pattern. -/
theorem C8_amended :
    removeExtraSpacesLine "A = B".data = "A=B".data ∧
    removeExtraSpacesLine "A- B".data = "A-B".data ∧
    removeExtraSpacesLine "A -B".data = "A -B".data ∧
    removeExtraSpacesLine "A  =B".data = "A =B".data ∧
    removeExtraSpacesLine "A ; B".data = "A;B".data ∧
    removeExtraSpacesLine "F ( X )".data = "F(X)".data := by decide

/-- Claim C9, counterexample: a line ending in the closing brace receives NO
statement separator (the brace is in the pass-through case list with the
opening brace, parenthesis and semicolon), and a trimmed line of length ≥ 5
ending in 'M' whose last five characters are not "PARAM" also receives NO
separator (the semicolon branch is only reached for shorter M-lines) —
contradicting the claim that both receive a separator. -/
theorem C9_counterexample :
    removeAllNewLines ["A\x7d".data, "X=ITEM".data] = ["A\x7d".data, "X=ITEM".data] ∧
    "A\x7d".data ≠ "A\x7d;".data ∧ "X=ITEM".data ≠ "X=ITEM;".data := by decide

/-- Claim C9, amended: for a line whose trimmed text is non-empty, a
statement separator is appended when the final character is none of the
closing brace, opening brace, opening parenthesis, semicolon, closing
bracket, and 'M'; a line ending in the closing brace passes through
unchanged; a line of length ≥ 5 ending in 'M' passes through unchanged
whether or not it ends in "PARAM". -/
theorem C9_amended : ∀ s : List Char,
    (goTrim s ≠ [] → (goTrim s).getLastD ' ' ∉ ['\x7d', '\x7b', '(', ';', ']', 'M'] →
      joinLine s = some (goTrim s ++ [';'])) ∧
    (goTrim s ≠ [] → (goTrim s).getLastD ' ' = '\x7d' → joinLine s = some (goTrim s)) ∧
    (goTrim s ≠ [] → (goTrim s).getLastD ' ' = 'M' → 5 ≤ (goTrim s).length →
      joinLine s = some (goTrim s)) := by
  intro s
  refine ⟨?_, ?_, ?_⟩
  · intro h1 h2
    simp only [List.mem_cons, not_or] at h2
    rw [joinLine]
    simp only [if_neg h1]
    rw [joinTerminate]
    rw [if_neg (by tauto), if_neg (by tauto), if_neg (by tauto)]
  · intro h1 h2
    rw [joinLine]
    simp only [if_neg h1]
    rw [joinTerminate, if_pos (Or.inl h2)]
  · intro h1 h2 h3
    rw [joinLine]
    simp only [if_neg h1]
    rw [joinTerminate]
    rw [if_neg (by rw [h2]; decide), if_neg (by rw [h2]; decide), if_pos h2, if_pos h3]
    by_cases hp : (goTrim s).drop ((goTrim s).length - 5) = "PARAM".data
    · rw [if_pos hp]
    · rw [if_neg hp]

/-- One concrete rendered version-4 UUID string, as `uuid.NewRandom` could
have produced it (upper-cased form). -/
def uuidA : List Char := "AAAAAAAA-AAAA-4AAA-8AAA-AAAAAAAAAAAA".data

/-- A second concrete rendered version-4 UUID string. -/
def uuidB : List Char := "BBBBBBBB-BBBB-4BBB-8BBB-BBBBBBBBBBBB".data

/-- A third concrete rendered version-4 UUID string. -/
def uuidC : List Char := "CCCCCCCC-CCCC-4CCC-8CCC-CCCCCCCCCCCC".data

set_option maxRecDepth 10000 in
/-- Claim C1: the pipeline output is NOT a deterministic function of the
input.  On the line "$ $COUNT" the discovery pattern matches the bare sigil
"$"; phase 1 then literally replaces every "$" — including the "$" inside the
transient alias already inserted for "$COUNT" — so that alias is corrupted,
phase 2 cannot substitute it away, and the random UUID fragment of the alias
leaks into the final output: two runs whose random source yields different
UUIDs produce different outputs. -/
theorem C1_nondeterministic :
    pipeline [uuidA, uuidB] ["$ $COUNT".data] ≠ pipeline [uuidA, uuidC] ["$ $COUNT".data] ∧
    pipeline [uuidA, uuidB] ["$ $COUNT".data] =
      some ["$B $B~~".data ++ uuidB ++ [';']] := by decide

set_option maxRecDepth 10000 in
/-- Claim C3, failing input: 52 distinct variables where the most frequent
("$X", twice) has the strictly shortest original name and the 51 others
(4-character names, once each) are longer.  `assignUniqueRandomNames`
re-sorts the slice by descending original-name length before
`generateShortNames` runs, so allocation follows name length, not frequency:
"$X" is allocated the 52nd slot "$A0" (three characters) while the once-used
"$V10" receives "$A" — the most frequent variable gets a strictly longer
short name, contradicting the claim and the doc comment of
`generateShortNames` ("making sure the more used variables have the shortest
name"). -/
theorem C3_rank_violated :
    (((finalVars ((List.range 52).map itoa)
        ("$X $X".data :: (List.range 51).map (fun i => SIGIL :: 'V' :: itoa (10 + i)))).find?
          (fun v => v.OriginalName == "$X".data)).map (fun v => (v.Count, v.ShortName)) =
      some (2, "$A0".data)) ∧
    (((finalVars ((List.range 52).map itoa)
        ("$X $X".data :: (List.range 51).map (fun i => SIGIL :: 'V' :: itoa (10 + i)))).find?
          (fun v => v.OriginalName == "$V10".data)).map (fun v => (v.Count, v.ShortName)) =
      some (1, "$A".data)) ∧
    ("$A".data).length < ("$A0".data).length := by decide

set_option maxRecDepth 10000 in
/-- Claim C5: renaming is NOT a bijection on occurrence sites for every
input.  On the line "$ $COUNT" the variable "$COUNT" (non-reserved, one
occurrence, short name "$A") loses its occurrence: the bare-sigil variable
"$" is substituted into "$COUNT"'s transient alias during phase 1, the
corrupted alias is never mapped back, and the renamed output contains zero
occurrences of "$A". -/
theorem C5_count_not_preserved :
    countOcc "$COUNT".data "$ $COUNT".data = 1 ∧
    (((finalVars [uuidA, uuidB] ["$ $COUNT".data]).find?
        (fun v => v.OriginalName == "$COUNT".data)).map
          (fun v => (v.Reserved, v.ShortName)) = some (false, "$A".data)) ∧
    countOcc "$A".data
      ((shortenAllVariableNames [uuidA, uuidB] ["$ $COUNT".data]).getD 0 []) = 0 := by decide

/-- Claim C6, counterexample: an occurrence of a reserved (escaped)
identifier does NOT appear in the output identical in letter case to its
appearance in the input — the rename stage upper-cases every line, so the
escaped variable written "`$abc" appears as "`$ABC". -/
theorem C6_counterexample :
    shortenAllVariableNames [uuidA] [ESCChar2 :: "$abc".data] = [ESCChar2 :: "$ABC".data] ∧
    (ESCChar2 :: "$ABC".data) ≠ (ESCChar2 :: "$abc".data) := by decide

/-- Claim C6, amended: for every input and every variable of the final
variable list, a reserved variable (reserved-set member or escape-marker
prefix) keeps `shortName = originalName` (the canonical upper-cased form);
its occurrences appear in the renamed output as the upper-case image of
their input text, demonstrated on the input "$true $x" whose reserved
"$TRUE" passes through (upper-cased) while "$x" is renamed. -/
theorem C6_amended :
    (∀ (uuids lines : List (List Char)), ∀ v ∈ finalVars uuids lines,
      v.Reserved = true → v.ShortName = v.OriginalName) ∧
    shortenAllVariableNames [uuidA, uuidB] ["$true $x".data] = ["$TRUE $A".data] := by
  constructor
  · intro uuids lines v hv hr
    rw [finalVars, mem_sortBy, generateShortNames] at hv
    obtain ⟨w, hw, horig, -, hres, heq⟩ := mem_genAux _ 0 0 v hv
    have hveq : v = w := heq hr
    subst hveq
    obtain ⟨x, hx, hxorig, hxshort, hxres, -⟩ := mem_assignUnique hw
    rw [mem_sortBy] at hx
    have hxr : x.Reserved = true := by rw [← hxres]; exact hr
    have := mem_getVariables_reserved hx hxr
    rw [hxshort, hxorig, this.1]
  · decide

/-- Claim C6, witness: the amended theorem applied to the concrete run on
"$true $x" at the concrete reserved variable "$TRUE" of its final variable
list. -/
theorem C6_amended_witness :
    ({ OriginalName := "$TRUE".data, UniqueName := "$~~".data ++ uuidA,
       ShortName := "$TRUE".data, Count := 1, Reserved := true } : PSVariable).ShortName =
    ({ OriginalName := "$TRUE".data, UniqueName := "$~~".data ++ uuidA,
       ShortName := "$TRUE".data, Count := 1, Reserved := true } : PSVariable).OriginalName :=
  C6_amended.1 [uuidA, uuidB] ["$true $x".data] _ (by decide) (by decide)

/-- Claim C7: within one run no two distinct variables share a short name or
a transient alias, and reserved variables consume no slot of the allocation
sequence.  Stated for every input line sequence and every choice of rendered
UUID strings that are pairwise distinct after upper-casing (what
`uuid.NewRandom` delivers) and sufficient in number: the final variable
list's short names are pairwise distinct, its unique (alias) names are
pairwise distinct, and the non-reserved variables' short names are exactly
the allocation sequence `slotName 0, slotName 1, …` — reserved entries are
skipped without consuming a slot. -/
theorem C7_uniqueness :
    ∀ (uuids lines : List (List Char)),
      (uuids.map listToUpper).Nodup →
      (getVariables lines).length ≤ uuids.length →
      ((finalVars uuids lines).map (·.ShortName)).Nodup ∧
      ((finalVars uuids lines).map (·.UniqueName)).Nodup ∧
      ((generateShortNames (assignUniqueRandomNames uuids
          (sortBy countLe (getVariables lines)))).filter (fun v => !v.Reserved)).map
            (·.ShortName) =
        (List.range' 0 (((assignUniqueRandomNames uuids
          (sortBy countLe (getVariables lines))).filter (fun v => !v.Reserved)).length)).map
            slotName := by
  intro uuids lines h1 h2
  set q := assignUniqueRandomNames uuids (sortBy countLe (getVariables lines)) with hq
  have hqorig : (q.map (·.OriginalName)).Nodup := by
    have hperm : (q.map (·.OriginalName)).Perm ((getVariables lines).map (·.OriginalName)) :=
      (assignUnique_origNames uuids _).trans ((sortBy_perm countLe _).map _)
    exact hperm.symm.nodup (getVariables_nodup lines)
  have hqres : ∀ v ∈ q, v.Reserved = true →
      v.ShortName = v.OriginalName ∧ slotShapedLike v.OriginalName = false := by
    intro v hv hr
    obtain ⟨x, hx, hxorig, hxshort, hxres, -⟩ := mem_assignUnique hv
    rw [mem_sortBy] at hx
    have hxr : x.Reserved = true := by rw [← hxres]; exact hr
    obtain ⟨hshort, hshape⟩ := mem_getVariables_reserved hx hxr
    refine ⟨by rw [hxshort, hxorig, hshort], ?_⟩
    rw [hxorig]
    rcases hshape with h | h
    · exact reserved_not_slotShaped _ h
    · exact escape_not_slotShaped h
  have hgen : ((generateShortNames q).map (·.ShortName)).Nodup := by
    rw [generateShortNames]
    have h0 := genAux_short_nodup q 0 hqorig hqres
    rw [Nat.zero_div] at h0
    exact h0
  refine ⟨?_, ?_, ?_⟩
  · exact (((sortBy_perm nameLenLe (generateShortNames q)).map _).symm).nodup hgen
  · refine (((sortBy_perm nameLenLe (generateShortNames q)).map _).symm).nodup ?_
    rw [generateShortNames, genAux_map_uniq]
    refine assignUnique_uniq_nodup uuids _ h1 ?_
    rw [(sortBy_perm countLe (getVariables lines)).length_eq]
    exact h2
  · rw [generateShortNames]
    have h0 := genAux_filter_short q 0
    rw [Nat.zero_div] at h0
    exact h0

/-- Claim C7, witness: the uniqueness theorem applied to the concrete run on
"$true $x" with two concrete distinct UUIDs. -/
theorem C7_uniqueness_witness :
    ((finalVars [uuidA, uuidB] ["$true $x".data]).map (·.ShortName)).Nodup ∧
    ((finalVars [uuidA, uuidB] ["$true $x".data]).map (·.UniqueName)).Nodup ∧
    ((generateShortNames (assignUniqueRandomNames [uuidA, uuidB]
        (sortBy countLe (getVariables ["$true $x".data])))).filter (fun v => !v.Reserved)).map
          (·.ShortName) =
      (List.range' 0 (((assignUniqueRandomNames [uuidA, uuidB]
        (sortBy countLe (getVariables ["$true $x".data]))).filter (fun v => !v.Reserved)).length)).map
          slotName :=
  C7_uniqueness [uuidA, uuidB] ["$true $x".data] (by decide) (by decide)

/-- Claim C10: the rename stage upper-cases every line before substituting
and the case change is never undone.  First part: when zero variables are
discovered, the stage is exactly the upper-casing of every line.  Second
part: for every input, a line containing neither the sigil nor the escape
backtick (so no variable occurrence and no substitution site) appears in the
renamed sequence as its full upper-case image, whatever variables the other
lines contribute. -/
theorem C10_uppercase :
    (∀ (uuids lines : List (List Char)), getVariables lines = [] →
      shortenAllVariableNames uuids lines = lines.map listToUpper) ∧
    (∀ (uuids lines : List (List Char)) (i : Nat),
      SIGIL ∉ lines.getD i [] → ESCChar2 ∉ lines.getD i [] →
      (shortenAllVariableNames uuids lines).getD i [] = listToUpper (lines.getD i [])) := by
  constructor
  · intro uuids lines h
    rw [shortenAllVariableNames, h]
    simp [shortenVariables, assignUniqueRandomNames, sortBy, generateShortNames, genAux,
      replaceVariablesWithUnique, replaceUniqueWithShort, replaceVarsLine, List.map_map]
  · intro uuids lines i hs hb
    rw [shortenAllVariableNames]
    simp only [shortenVariables, replaceUniqueWithShort, replaceVariablesWithUnique]
    set p2 := generateShortNames
      (assignUniqueRandomNames uuids (sortBy countLe (getVariables lines))) with hp2
    have hvars : ∀ v ∈ sortBy nameLenLe p2,
        (v.OriginalName.head? = some SIGIL ∨ v.OriginalName.head? = some ESCChar2) ∧
        v.UniqueName.head? = some SIGIL := by
      intro v hv
      rw [mem_sortBy, hp2, generateShortNames] at hv
      obtain ⟨w, hw, horig, huniq, -, -⟩ := mem_genAux _ 0 0 v hv
      obtain ⟨x, hx, hxorig, -, -, -⟩ := mem_assignUnique hw
      rw [mem_sortBy] at hx
      constructor
      · rw [horig, hxorig]
        rcases mem_getVariables_head hx with h | h
        · exact Or.inr h
        · exact Or.inl h
      · rw [huniq]
        exact mem_assignUnique_uniqHead hw
    have hf0 : ∀ l : List Char, SIGIL ∉ l → ESCChar2 ∉ l →
        (sortBy nameLenLe p2).foldl
          (fun acc v => replaceAll v.UniqueName v.ShortName acc)
          (replaceVarsLine (sortBy nameLenLe p2) l) = listToUpper l := by
      intro l hls hlb
      have hup : replaceVarsLine (sortBy nameLenLe p2) l = listToUpper l := by
        rw [replaceVarsLine]
        exact foldl_replace_id _ (·.OriginalName) (·.UniqueName) _
          (fun v hv => (hvars v hv).1)
          (listToUpper_not_mem (by decide) hls) (listToUpper_not_mem (by decide) hlb)
      rw [hup]
      exact foldl_replace_id _ (·.UniqueName) (·.ShortName) _
        (fun v hv => Or.inl (hvars v hv).2)
        (listToUpper_not_mem (by decide) hls) (listToUpper_not_mem (by decide) hlb)
    have hrvlNil : replaceVarsLine (sortBy nameLenLe p2) [] = [] := by
      rw [replaceVarsLine]
      exact foldl_replace_nil _ (·.OriginalName) (·.UniqueName)
    rw [getD_nil_map
      (fun l => (sortBy nameLenLe p2).foldl
        (fun acc v => replaceAll v.UniqueName v.ShortName acc) l)
      (foldl_replace_nil _ (·.UniqueName) (·.ShortName)) (lines.map _) i]
    rw [getD_nil_map (replaceVarsLine (sortBy nameLenLe p2)) hrvlNil lines i]
    exact hf0 (lines.getD i []) hs hb

/-- Claim C10, witness: the upper-casing theorem applied to a variable-free
input (zero variables discovered) and to a variable-free line of an input
whose other line does contain a variable. -/
theorem C10_uppercase_witness :
    shortenAllVariableNames [] ["get-item x".data] = ["get-item x".data].map listToUpper ∧
    (shortenAllVariableNames [uuidA] ["$y AB".data, "no vars".data]).getD 1 [] =
      listToUpper (["$y AB".data, "no vars".data].getD 1 []) :=
  ⟨C10_uppercase.1 [] ["get-item x".data] (by decide),
   C10_uppercase.2 [uuidA] ["$y AB".data, "no vars".data] 1 (by decide) (by decide)⟩

/-- Claim C9, witness for the amended theorem at concrete inputs: "AB=CD"
gets a semicolon, "E}" passes through unchanged, "X=ITEM" passes through
unchanged. -/
theorem C9_amended_witness :
    joinLine "AB=CD".data = some ("AB=CD;".data) ∧
    joinLine "E\x7d".data = some ("E\x7d".data) ∧
    joinLine "X=ITEM".data = some ("X=ITEM".data) := by
  refine ⟨?_, ?_, ?_⟩
  · have h := (C9_amended "AB=CD".data).1 (by decide) (by decide)
    rw [show goTrim "AB=CD".data = "AB=CD".data from by decide] at h
    exact h
  · have h := (C9_amended "E\x7d".data).2.1 (by decide) (by decide)
    rw [show goTrim "E\x7d".data = "E\x7d".data from by decide] at h
    exact h
  · have h := (C9_amended "X=ITEM".data).2.2 (by decide) (by decide) (by decide)
    rw [show goTrim "X=ITEM".data = "X=ITEM".data from by decide] at h
    exact h

example : stripComments "a<#b".data false = some ("a".data, true) := by decide

example : stripComments "x#>yz".data true = some ("yz".data, false) := by decide

example : stripComments "ab#".data true = none := by decide

example : findMatches "$x = $count7 + `$esc".data =
    ["$x".data, "$count7".data, "`$esc".data] := by decide

example : itoa 0 = ['0'] ∧ itoa 51 = ['5', '1'] := by decide
